import Mathlib

/-!
Verification development for the typescript-eslint binding/name-resolution
layer and two rule helpers.

The scope-manager engine itself (Binder and Resolver) is not shipped in this
source snapshot, so it is modelled from the specification document; the
max-params rule wrapper and the enum utilities are embedded directly from
their TypeScript sources.
-/

namespace ScopeManager

/-- Modelled from the spec: the kind of a lexical scope. The spec lists more
kinds (class, switch, catch, for-head, ...); only the kinds that the scoping
rules distinguish (function-or-module versus block-like) are needed here, so
every non-function, non-module scope is represented by the block kind. -/
inductive ScopeKind : Type where
  | module : ScopeKind
  | function : ScopeKind
  | block : ScopeKind
deriving DecidableEq

/-- Modelled from the spec: one scope on the scope chain, identified by the
pre-order position of the node that introduced it together with its kind.
A scope path is a list of frames listed innermost first; the ancestor-or-self
relation between scopes is the list suffix relation on paths. -/
structure Frame : Type where
  id : Nat
  kind : ScopeKind
deriving DecidableEq

/-- Modelled from the spec: the kind of a Definition (declaration site). -/
inductive DefKind : Type where
  | varDef : DefKind
  | funcDef : DefKind
  | paramDef : DefKind
  | letDef : DefKind
  | classDef : DefKind
  | nsDef : DefKind
  | enumDef : DefKind
deriving DecidableEq

/-- Modelled from the spec: var-like declarations and function declarations
are hoisted to the nearest enclosing function-or-module scope. -/
def hoisted : DefKind → Bool
  | DefKind.varDef => true
  | DefKind.funcDef => true
  | _ => false

/-- Modelled from the spec: block-scoped declarations (block-scoped variable
and class declarations) attach to the nearest enclosing scope of any kind and
are subject to temporal-dead-zone bookkeeping. -/
def blockScoped : DefKind → Bool
  | DefKind.letDef => true
  | DefKind.classDef => true
  | _ => false

/-- Modelled from the spec: namespace and enum declarations attach at module
scope. -/
def moduleLevel : DefKind → Bool
  | DefKind.nsDef => true
  | DefKind.enumDef => true
  | _ => false

/-- Modelled from the spec: declaration kinds whose repetition on one name in
one scope merges into a single Variable with several Definitions (merged
namespaces, namespace-enum merging, var redeclaration, function overloads);
incompatible kinds instead overwrite per redeclaration rules. -/
def compatibleKinds : DefKind → DefKind → Bool
  | DefKind.varDef, DefKind.varDef => true
  | DefKind.funcDef, DefKind.funcDef => true
  | DefKind.nsDef, DefKind.nsDef => true
  | DefKind.nsDef, DefKind.enumDef => true
  | DefKind.enumDef, DefKind.nsDef => true
  | DefKind.enumDef, DefKind.enumDef => true
  | _, _ => false

/-- Modelled from the spec: the syntax tree shape the Binder consumes.
Statement sequences are modelled with an explicit sequencing constructor so
that source order is the left-to-right order of the tree. A function
declaration both declares its name in the surrounding context and introduces
a function scope holding its parameters and body. -/
inductive Stmt : Type where
  | skip : Stmt
  | seq : Stmt → Stmt → Stmt
  | decl : DefKind → String → Stmt
  | func : String → List String → Stmt → Stmt
  | block : Stmt → Stmt
  | ref : String → Stmt
deriving DecidableEq

/-- Modelled from the spec: one registered declaration site, recorded with
the scope path it attaches to and its pre-order source position. -/
structure Decl : Type where
  scope : List Frame
  kind : DefKind
  name : String
  pos : Nat
deriving DecidableEq

/-- Modelled from the spec: one identifier occurrence in a use position,
recorded with the innermost enclosing scope path at creation time and its
pre-order source position. -/
structure Ref : Type where
  scope : List Frame
  name : String
  pos : Nat
deriving DecidableEq

/-- Modelled from the spec: the nearest enclosing function-or-module scope of
a scope chain, the hoisting target of var-like and function declarations. -/
def hoistTarget (frames : List Frame) : List Frame :=
  frames.dropWhile (fun f => f.kind == ScopeKind.block)

/-- Modelled from the spec: the nearest enclosing module scope of a scope
chain, the attachment point of namespace and enum declarations. -/
def moduleTarget (frames : List Frame) : List Frame :=
  frames.dropWhile (fun f => !(f.kind == ScopeKind.module))

/-- Modelled from the spec: the scope a declaration of a given kind attaches
to when the current scope chain is the given one. -/
def attachTarget (frames : List Frame) (k : DefKind) : List Frame :=
  if moduleLevel k then moduleTarget frames
  else if hoisted k then hoistTarget frames
  else frames

/-- Modelled from the spec: the Binder output — registered declarations and
references, in source order, plus the running pre-order position counter. -/
structure BindOut : Type where
  decls : List Decl
  refs : List Ref
  pos : Nat
deriving DecidableEq

/-- Modelled from the spec: parameters attach to the function scope itself. -/
def bindParams (frames : List Frame) : List String → BindOut → BindOut
  | [], st => st
  | p :: ps, st =>
      bindParams frames ps
        { st with
          decls := st.decls ++ [⟨frames, DefKind.paramDef, p, st.pos⟩]
          pos := st.pos + 1 }

/-- Modelled from the spec: the Binder. A single depth-first source-order
traversal that pushes a scope frame on entering a scope-introducing node,
registers each declaration at its attachment scope, and records each use-site
identifier as a Reference attached to the current innermost scope. -/
def bindStmt (frames : List Frame) : Stmt → BindOut → BindOut
  | Stmt.skip, st => st
  | Stmt.seq a b, st => bindStmt frames b (bindStmt frames a st)
  | Stmt.decl k n, st =>
      { st with
        decls := st.decls ++ [⟨attachTarget frames k, k, n, st.pos⟩]
        pos := st.pos + 1 }
  | Stmt.ref n, st =>
      { st with
        refs := st.refs ++ [⟨frames, n, st.pos⟩]
        pos := st.pos + 1 }
  | Stmt.block body, st =>
      bindStmt (⟨st.pos, ScopeKind.block⟩ :: frames) body { st with pos := st.pos + 1 }
  | Stmt.func n ps body, st =>
      bindStmt (⟨st.pos, ScopeKind.function⟩ :: frames) body
        (bindParams (⟨st.pos, ScopeKind.function⟩ :: frames) ps
          { st with
            decls :=
              st.decls ++
                [⟨attachTarget frames DefKind.funcDef, DefKind.funcDef, n, st.pos⟩]
            pos := st.pos + 1 })

/-- Modelled from the spec: run the Binder on a whole tree under the root
module scope. -/
def bindProgram (t : Stmt) : BindOut :=
  bindStmt [⟨0, ScopeKind.module⟩] t ⟨[], [], 1⟩

/-- Modelled from the spec: a Variable — one declared binding, owned by
exactly one scope, holding the ordered Definitions contributed to it. -/
structure Variable : Type where
  scope : List Frame
  name : String
  defs : List (DefKind × Nat)
deriving DecidableEq

/-- Whether a Variable lives in the given scope under the given name. -/
def varMatches (v : Variable) (scope : List Frame) (name : String) : Bool :=
  v.scope == scope && v.name == name

/-- Modelled from the spec: apply one declaration to a matching Variable.
A compatible redeclaration appends a Definition; an incompatible one
overwrites the Variable, restarting its Definition list. -/
def updateVar (d : Decl) (v : Variable) : Variable :=
  if varMatches v d.scope d.name then
    if v.defs.all (fun e => compatibleKinds e.1 d.kind) then
      { v with defs := v.defs ++ [(d.kind, d.pos)] }
    else
      { v with defs := [(d.kind, d.pos)] }
  else v

/-- Modelled from the spec: register one declaration in the variable tables.
A redeclaration of an existing same-scope same-name Variable updates that
Variable in place; a fresh name creates a new Variable. -/
def addDecl (vars : List Variable) (d : Decl) : List Variable :=
  if vars.any (fun v => varMatches v d.scope d.name) then
    vars.map (updateVar d)
  else
    vars ++ [⟨d.scope, d.name, [(d.kind, d.pos)]⟩]

/-- Modelled from the spec: the variable tables of all scopes, built by
folding the registered declarations in source order. -/
def variablesOf (decls : List Decl) : List Variable :=
  decls.foldl addDecl []

/-- Look up the Variable of a given name in a given scope. -/
def lookupVar (vars : List Variable) (scope : List Frame) (name : String) : Option Variable :=
  vars.find? (fun v => varMatches v scope name)

/-- Modelled from the spec: the Resolver walk. Starting from the originating
scope, look the name up in each scope table along the parent chain and stop
at the first scope that declares it; reaching past the root yields none. -/
def resolveWalk (vars : List Variable) (name : String) : List Frame → Option (List Frame)
  | [] => none
  | f :: rest =>
      if (lookupVar vars (f :: rest) name).isSome then some (f :: rest)
      else resolveWalk vars name rest

/-- Modelled from the spec: the classification of a Reference after
resolution — either linked to the Variable owned by the target scope, or
classified at the root as an implicit/ambient global. It is data, never an
error. -/
inductive Resolution : Type where
  | resolved : List Frame → Resolution
  | implicitGlobal : Resolution
deriving DecidableEq

/-- Modelled from the spec: the used-before-declaration (temporal dead zone)
test — every Definition of the Variable is block-scoped and lies after the
referencing position. -/
def tdz (v : Variable) (refPos : Nat) : Bool :=
  v.defs.all (fun e => blockScoped e.1 && decide (refPos < e.2))

/-- Modelled from the spec: a Reference after the Resolver pass: the original
Reference, its classification, and the dead-zone flag. -/
structure ResolvedRef : Type where
  ref : Ref
  resolution : Resolution
  usedBeforeDecl : Bool
deriving DecidableEq

/-- Modelled from the spec: resolve one Reference. A name found along the
walk is linked to its Variable even when the position makes the use a
dead-zone violation; that case only sets the flag. A name found nowhere is
classified as an implicit global. -/
def resolveRef (vars : List Variable) (r : Ref) : ResolvedRef :=
  match resolveWalk vars r.name r.scope with
  | some q =>
      match lookupVar vars q r.name with
      | some v => ⟨r, Resolution.resolved q, tdz v r.pos⟩
      | none => ⟨r, Resolution.resolved q, false⟩
  | none => ⟨r, Resolution.implicitGlobal, false⟩

/-- Modelled from the spec: the variable tables of a whole program. -/
def programVars (t : Stmt) : List Variable :=
  variablesOf (bindProgram t).decls

/-- Modelled from the spec: Binder followed by Resolver on a whole tree. -/
def resolveProgram (t : Stmt) : List ResolvedRef :=
  (bindProgram t).refs.map (resolveRef (programVars t))

/-- A scope chain that contains at least one non-block frame; every chain
the Binder ever works under has this shape because the root frame is the
module scope. -/
def goodFrames (frames : List Frame) : Prop :=
  ∃ f ∈ frames, f.kind ≠ ScopeKind.block

/-- A registered declaration whose hoisting obligation is met: if its kind
is hoisted, the scope it attached to starts with a non-block frame, that is,
it is a function-or-module scope and not a block scope. -/
def hoistedDeclOk (d : Decl) : Prop :=
  hoisted d.kind = true → ∃ g gs, d.scope = g :: gs ∧ g.kind ≠ ScopeKind.block

/-- Two Variables do not collide: they differ in scope or in name. -/
def distinctKey (v1 v2 : Variable) : Prop :=
  v1.scope = v2.scope → v1.name = v2.name → False

/-- The root module frame. -/
def rootFrame : Frame := ⟨0, ScopeKind.module⟩

/-- Sample tree for the spec scenario with two var declarations of one name,
the inner one inside a nested block: both hoist to the enclosing
function-or-module scope and merge into one Variable. -/
def sampleVarMerge : Stmt :=
  Stmt.block (Stmt.seq (Stmt.decl DefKind.varDef "a")
    (Stmt.block (Stmt.decl DefKind.varDef "a")))

/-- Sample tree for the spec block-containment scenario: a block-scoped
declaration referenced from outside its block. -/
def sampleBlockLet : Stmt :=
  Stmt.block (Stmt.seq (Stmt.block (Stmt.decl DefKind.letDef "b")) (Stmt.ref "b"))

/-- Sample tree for shadowing: an outer var and an inner block-scoped
declaration of the same name, referenced from the inner block. -/
def sampleShadow : Stmt :=
  Stmt.seq (Stmt.decl DefKind.varDef "x")
    (Stmt.block (Stmt.seq (Stmt.decl DefKind.letDef "x") (Stmt.ref "x")))

/-- Sample tree for the temporal dead zone: a reference textually before a
block-scoped declaration of the same name in the same scope. -/
def sampleTdz : Stmt :=
  Stmt.seq (Stmt.ref "b") (Stmt.decl DefKind.letDef "b")

/-- Sample tree for hoisting: a reference textually before a var declaration
of the same name in the same scope. -/
def sampleVarUse : Stmt :=
  Stmt.seq (Stmt.decl DefKind.varDef "x") (Stmt.ref "x")

/-- Sample tree for hoisted resolution: a reference inside a block, textually
before the var declaration of the same name that hoists to the enclosing
module scope. -/
def sampleHoistUse : Stmt :=
  Stmt.seq (Stmt.block (Stmt.ref "x")) (Stmt.decl DefKind.varDef "x")

/-- Sample tree with a reference that no scope declares. -/
def sampleGlobalRef : Stmt := Stmt.ref "y"

/-- Sample variable table used by the determinism witness. -/
def sampleVars : List Variable := [⟨[rootFrame], "x", [(DefKind.varDef, 1)]⟩]

/-- Sample references used by the determinism witness. -/
def sampleRef1 : Ref := ⟨[rootFrame], "x", 2⟩

/-- A second sample reference used by the determinism witness. -/
def sampleRef2 : Ref := ⟨[rootFrame], "y", 3⟩

end ScopeManager

namespace MaxParams

/-- The AST node type tags the max-params wrapper inspects: only
Identifier and TSVoidKeyword are distinguished by the code; every other tag
behaves alike and is collapsed into one constructor. -/
inductive ASTNodeType : Type where
  | identifier : ASTNodeType
  | tsVoidKeyword : ASTNodeType
  | otherNode : ASTNodeType
deriving DecidableEq

/-- A TSTypeAnnotation wrapper node: its typeAnn field models the inner
type node reached in the source as .typeAnnotation.type (the field name is
shortened here). -/
structure TypeAnn : Type where
  typeAnn : ASTNodeType
deriving DecidableEq

/-- One function parameter as the wrapper sees it: its node type tag, its
identifier name, and its optional type annotation; the source reads the
optional chain params[0].typeAnnotation?.typeAnnotation.type, modelled as
an Option of TypeAnn. -/
structure Param : Type where
  type : ASTNodeType
  name : String
  typeAnn : Option TypeAnn
deriving DecidableEq

/-- A function-like node (FunctionDeclaration, FunctionExpression or
ArrowFunctionExpression): only its params list matters to the wrapper. -/
structure FunctionLike : Type where
  params : List Param
deriving DecidableEq

/-- From max-params.ts removeVoidThisParam: on a node with a nonempty params
list whose first parameter is an Identifier named this annotated with the
void keyword, return a copy of the node with params.slice(1); otherwise
return the node unchanged. -/
def removeVoidThisParam (node : FunctionLike) : FunctionLike :=
  if node.params.length = 0 then node
  else
    match node.params with
    | p :: rest =>
        if p.type = ASTNodeType.identifier ∧ p.name = "this" ∧
            (p.typeAnn.map TypeAnn.typeAnn) = some ASTNodeType.tsVoidKeyword
        then ⟨rest⟩
        else ⟨node.params⟩
    | [] => ⟨node.params⟩

/-- From max-params.ts wrapListener: pass the node through
removeVoidThisParam before invoking the wrapped listener. -/
def wrapListener {α : Type} (listener : FunctionLike → α) : FunctionLike → α :=
  fun node => listener (removeVoidThisParam node)

/-- The three listeners the rule returns, one per function-like node type. -/
structure RuleListeners (α : Type) : Type where
  arrowFunctionExpression : FunctionLike → α
  functionDeclaration : FunctionLike → α
  functionExpression : FunctionLike → α

/-- From max-params.ts create: when countVoidThis === true (the option may
be absent, hence an Option Bool), return the base rule listeners unwrapped;
otherwise wrap each of the three function-like listeners. -/
def create {α : Type} (countVoidThis : Option Bool) (baseRules : RuleListeners α) :
    RuleListeners α :=
  if countVoidThis = some true then baseRules
  else
    ⟨wrapListener baseRules.arrowFunctionExpression,
     wrapListener baseRules.functionDeclaration,
     wrapListener baseRules.functionExpression⟩

/-- Sample parameter: an Identifier named this annotated with void. -/
def sampleThisParam : Param :=
  ⟨ASTNodeType.identifier, "this", some ⟨ASTNodeType.tsVoidKeyword⟩⟩

/-- Sample ordinary parameter. -/
def sampleXParam : Param := ⟨ASTNodeType.identifier, "x", none⟩

/-- Sample function-like node whose first parameter is a void this. -/
def sampleVoidThisNode : FunctionLike := ⟨[sampleThisParam, sampleXParam]⟩

/-- Sample base listeners that report the params list they were given. -/
def sampleListeners : RuleListeners (List Param) :=
  ⟨fun n => n.params, fun n => n.params, fun n => n.params⟩

end MaxParams

namespace EnumUtils

/-- The parent symbol of an enum member symbol; only its name is read. -/
structure EnumParent : Type where
  name : String
deriving DecidableEq

/-- The symbol of an enum literal type: its own name and its parent. -/
structure EnumSymbol : Type where
  parent : EnumParent
  name : String
deriving DecidableEq

/-- An enum literal type as getEnumKeyForLiteral reads it: a value compared
against the literal with strict equality, and a symbol. The value type is a
parameter with decidable equality, standing for the strict-equality
comparison on the unknown-typed literal. -/
structure EnumLiteralType (V : Type) : Type where
  value : V
  symbol : EnumSymbol
deriving DecidableEq

/-- From enum-utils/shared.ts getEnumKeyForLiteral: scan the list in order;
on the first element whose value strictly equals the literal, return the
string symbol.parent.name ++ "." ++ symbol.name; return null when no element
matches. -/
def getEnumKeyForLiteral {V : Type} [DecidableEq V] :
    List (EnumLiteralType V) → V → Option String
  | [], _ => none
  | e :: rest, lit =>
      if e.value = lit then some (e.symbol.parent.name ++ "." ++ e.symbol.name)
      else getEnumKeyForLiteral rest lit

/-- Sample enum literal list from the doc comment of the source. -/
def sampleFruit : List (EnumLiteralType String) :=
  [⟨"apple", ⟨⟨"Fruit"⟩, "Apple"⟩⟩, ⟨"banana", ⟨⟨"Fruit"⟩, "Banana"⟩⟩]

end EnumUtils

namespace ScopeManager

theorem suffix_of_cons_of_ne {α : Type} {S rest : List α} {f : α}
    (h : S <:+ f :: rest) (hne : S ≠ f :: rest) : S <:+ rest := by
  obtain ⟨t, ht⟩ := h
  cases t with
  | nil => simp at ht; exact absurd ht hne
  | cons a t' =>
      refine ⟨t', ?_⟩
      simpa using congrArg List.tail ht

theorem resolveWalk_suffix (vars : List Variable) (name : String) :
    ∀ (p q : List Frame), resolveWalk vars name p = some q → q <:+ p := by
  intro p
  induction p with
  | nil => intro q h; simp [resolveWalk] at h
  | cons f rest ih =>
      intro q h
      rw [resolveWalk] at h
      split at h
      · cases h; exact List.suffix_refl _
      · exact (ih q h).trans (List.suffix_cons f rest)

theorem resolveWalk_target_declared (vars : List Variable) (name : String) :
    ∀ (p q : List Frame), resolveWalk vars name p = some q →
      (lookupVar vars q name).isSome = true := by
  intro p
  induction p with
  | nil => intro q h; simp [resolveWalk] at h
  | cons f rest ih =>
      intro q h
      rw [resolveWalk] at h
      split at h
      · cases h; assumption
      · exact ih q h

theorem resolveWalk_below (vars : List Variable) (name : String) :
    ∀ (p S : List Frame), S ≠ [] → (lookupVar vars S name).isSome = true →
      S <:+ p → ∃ q, resolveWalk vars name p = some q ∧ S <:+ q := by
  intro p
  induction p with
  | nil =>
      intro S hS _ hsub
      exact absurd (List.suffix_nil.mp hsub) hS
  | cons f rest ih =>
      intro S hS hl hsub
      rw [resolveWalk]
      by_cases hcond : (lookupVar vars (f :: rest) name).isSome = true
      · exact ⟨f :: rest, by rw [if_pos hcond], hsub⟩
      · have hne : S ≠ f :: rest := fun he => hcond (he ▸ hl)
        obtain ⟨q, hq, hSq⟩ := ih S hS hl (suffix_of_cons_of_ne hsub hne)
        exact ⟨q, by rw [if_neg hcond]; exact hq, hSq⟩

theorem resolveWalk_exact (vars : List Variable) (name : String) :
    ∀ (p S : List Frame), S ≠ [] → (lookupVar vars S name).isSome = true → S <:+ p →
      (∀ q, q <:+ p → S <:+ q → q ≠ S → lookupVar vars q name = none) →
      resolveWalk vars name p = some S := by
  intro p
  induction p with
  | nil =>
      intro S hS _ hsub _
      exact absurd (List.suffix_nil.mp hsub) hS
  | cons f rest ih =>
      intro S hS hl hsub hmin
      rw [resolveWalk]
      by_cases heq : S = f :: rest
      · subst heq; rw [if_pos hl]
      · have hnone := hmin (f :: rest) (List.suffix_refl _) hsub (fun h => heq h.symm)
        rw [if_neg (by simp [hnone])]
        exact ih S hS hl (suffix_of_cons_of_ne hsub heq)
          (fun q hq hSq hqS => hmin q (hq.trans (List.suffix_cons f rest)) hSq hqS)

theorem resolveWalk_none_iff (vars : List Variable) (name : String) :
    ∀ (p : List Frame), resolveWalk vars name p = none ↔
      ∀ q, q <:+ p → q ≠ [] → lookupVar vars q name = none := by
  intro p
  induction p with
  | nil =>
      constructor
      · intro _ q hq hne
        exact absurd (List.suffix_nil.mp hq) hne
      · intro _; rfl
  | cons f rest ih =>
      rw [resolveWalk]
      cases hx : lookupVar vars (f :: rest) name with
      | some v =>
          rw [if_pos (by simp [hx])]
          constructor
          · intro h; exact absurd h (by simp)
          · intro h
            have := h (f :: rest) (List.suffix_refl _) (by simp)
            rw [this] at hx; exact absurd hx (by simp)
      | none =>
          rw [if_neg (by simp [hx]), ih]
          constructor
          · intro h q hq hne
            by_cases heq : q = f :: rest
            · subst heq; exact hx
            · exact h q (suffix_of_cons_of_ne hq heq) hne
          · intro h q hq hne
            exact h q (hq.trans (List.suffix_cons f rest)) hne

theorem resolveRef_ref (vars : List Variable) (r : Ref) : (resolveRef vars r).ref = r := by
  unfold resolveRef
  cases h1 : resolveWalk vars r.name r.scope with
  | none => rfl
  | some q => cases h2 : lookupVar vars q r.name <;> simp [h2]

theorem resolveRef_resolved_iff (vars : List Variable) (r : Ref) (q : List Frame) :
    (resolveRef vars r).resolution = Resolution.resolved q ↔
      resolveWalk vars r.name r.scope = some q := by
  unfold resolveRef
  cases h1 : resolveWalk vars r.name r.scope with
  | none => simp
  | some q' => cases h2 : lookupVar vars q' r.name <;> simp [h2]

theorem resolveRef_global_iff (vars : List Variable) (r : Ref) :
    (resolveRef vars r).resolution = Resolution.implicitGlobal ↔
      resolveWalk vars r.name r.scope = none := by
  unfold resolveRef
  cases h1 : resolveWalk vars r.name r.scope with
  | none => simp
  | some q' => cases h2 : lookupVar vars q' r.name <;> simp [h2]

theorem resolveRef_of_lookup (vars : List Variable) (r : Ref) (q : List Frame) (v : Variable)
    (hw : resolveWalk vars r.name r.scope = some q)
    (hl : lookupVar vars q r.name = some v) :
    resolveRef vars r = ⟨r, Resolution.resolved q, tdz v r.pos⟩ := by
  unfold resolveRef
  simp only [hw, hl]

theorem mem_resolveProgram {t : Stmt} {rr : ResolvedRef} (h : rr ∈ resolveProgram t) :
    ∃ r, r ∈ (bindProgram t).refs ∧ rr = resolveRef (programVars t) r := by
  rw [resolveProgram] at h
  obtain ⟨r, hr, hrr⟩ := List.mem_map.mp h
  exact ⟨r, hr, hrr.symm⟩

theorem hoistTarget_cons (f : Frame) (rest : List Frame) :
    hoistTarget (f :: rest) =
      if f.kind = ScopeKind.block then hoistTarget rest else f :: rest := by
  by_cases hb : f.kind = ScopeKind.block
  · rw [if_pos hb]; unfold hoistTarget; rw [List.dropWhile_cons, if_pos (by simp [hb])]
  · rw [if_neg hb]; unfold hoistTarget; rw [List.dropWhile_cons, if_neg (by simp [hb])]

theorem hoistTarget_good :
    ∀ frames : List Frame, goodFrames frames →
      ∃ g gs, hoistTarget frames = g :: gs ∧ g.kind ≠ ScopeKind.block := by
  intro frames
  induction frames with
  | nil => rintro ⟨f, hf, _⟩; simp at hf
  | cons f rest ih =>
      intro h
      rw [hoistTarget_cons]
      by_cases hb : f.kind = ScopeKind.block
      · rw [if_pos hb]
        apply ih
        obtain ⟨g, hg, hgk⟩ := h
        rcases List.mem_cons.mp hg with he | hr
        · subst he; exact absurd hb hgk
        · exact ⟨g, hr, hgk⟩
      · rw [if_neg hb]
        exact ⟨f, rest, rfl, hb⟩

theorem bindParams_decls_ok (frames : List Frame) :
    ∀ (ps : List String) (st : BindOut),
      (∀ d ∈ st.decls, hoistedDeclOk d) →
      ∀ d ∈ (bindParams frames ps st).decls, hoistedDeclOk d := by
  intro ps
  induction ps with
  | nil => intro st h; exact h
  | cons p ps ih =>
      intro st h
      rw [bindParams]
      apply ih
      intro d hd
      simp at hd
      rcases hd with hd | hd
      · exact h d hd
      · subst hd
        intro hk
        simp [hoisted] at hk

theorem bindStmt_decls_ok :
    ∀ (s : Stmt) (frames : List Frame) (st : BindOut),
      goodFrames frames → (∀ d ∈ st.decls, hoistedDeclOk d) →
      ∀ d ∈ (bindStmt frames s st).decls, hoistedDeclOk d := by
  intro s
  induction s with
  | skip => intro frames st _ h; exact h
  | seq a b iha ihb =>
      intro frames st hg h
      rw [bindStmt]
      exact ihb frames _ hg (iha frames st hg h)
  | decl k n =>
      intro frames st hg h
      rw [bindStmt]
      intro d hd
      simp at hd
      rcases hd with hd | hd
      · exact h d hd
      · subst hd
        intro hk
        have hml : moduleLevel k = false := by
          cases k <;> simp [hoisted, moduleLevel] at hk ⊢
        show ∃ g gs, attachTarget frames k = g :: gs ∧ g.kind ≠ ScopeKind.block
        unfold attachTarget
        rw [if_neg (by simp [hml]), if_pos hk]
        exact hoistTarget_good frames hg
  | ref n =>
      intro frames st hg h
      rw [bindStmt]
      intro d hd
      simp at hd
      exact h d hd
  | block body ih =>
      intro frames st hg h
      rw [bindStmt]
      apply ih
      · obtain ⟨g, hg', hgk⟩ := hg
        exact ⟨g, List.mem_cons_of_mem _ hg', hgk⟩
      · simpa using h
  | func n ps body ih =>
      intro frames st hg h
      rw [bindStmt]
      apply ih
      · exact ⟨⟨st.pos, ScopeKind.function⟩, List.mem_cons_self _ _, by simp⟩
      · apply bindParams_decls_ok
        intro d hd
        simp at hd
        rcases hd with hd | hd
        · exact h d hd
        · subst hd
          intro hk
          show ∃ g gs, attachTarget frames DefKind.funcDef = g :: gs ∧
            g.kind ≠ ScopeKind.block
          unfold attachTarget
          rw [if_neg (by simp [moduleLevel]), if_pos (by simp [hoisted])]
          exact hoistTarget_good frames hg

theorem updateVar_scope (d : Decl) (v : Variable) : (updateVar d v).scope = v.scope := by
  unfold updateVar
  split
  · split <;> rfl
  · rfl

theorem updateVar_name (d : Decl) (v : Variable) : (updateVar d v).name = v.name := by
  unfold updateVar
  split
  · split <;> rfl
  · rfl

theorem addDecl_pairwise (vars : List Variable) (d : Decl)
    (h : vars.Pairwise distinctKey) : (addDecl vars d).Pairwise distinctKey := by
  unfold addDecl
  split
  · rw [List.pairwise_map]
    exact h.imp (fun {a b} hab => by
      intro hs hn
      exact hab (by rwa [updateVar_scope, updateVar_scope] at hs)
        (by rwa [updateVar_name, updateVar_name] at hn))
  · rename_i hany
    rw [List.pairwise_append]
    refine ⟨h, by simp, ?_⟩
    intro a ha b hb
    simp at hb
    subst hb
    intro hs hn
    apply hany
    rw [List.any_eq_true]
    exact ⟨a, ha, by simp [varMatches, hs, hn]⟩

theorem foldl_addDecl_pairwise :
    ∀ (ds : List Decl) (vars : List Variable), vars.Pairwise distinctKey →
      (ds.foldl addDecl vars).Pairwise distinctKey := by
  intro ds
  induction ds with
  | nil => intro vars h; exact h
  | cons d ds ih => intro vars h; exact ih _ (addDecl_pairwise vars d h)

theorem variablesOf_pairwise (ds : List Decl) : (variablesOf ds).Pairwise distinctKey :=
  foldl_addDecl_pairwise ds [] List.Pairwise.nil

theorem resolveRef_pos_independent (vars : List Variable) (r : Ref) (p' : Nat) :
    (resolveRef vars ⟨r.scope, r.name, p'⟩).resolution = (resolveRef vars r).resolution := by
  unfold resolveRef
  cases h1 : resolveWalk vars r.name r.scope with
  | none => simp [h1]
  | some q =>
      cases h2 : lookupVar vars q r.name with
      | none => simp [h1, h2]
      | some v => simp [h1, h2]

theorem variablesOf_pair (d1 d2 : Decl) (hs : d1.scope = d2.scope) (hn : d1.name = d2.name)
    (hc : compatibleKinds d1.kind d2.kind = true) :
    variablesOf [d1, d2] =
      [⟨d1.scope, d1.name, [(d1.kind, d1.pos), (d2.kind, d2.pos)]⟩] := by
  unfold variablesOf
  simp only [List.foldl]
  have h1 : addDecl [] d1 = [⟨d1.scope, d1.name, [(d1.kind, d1.pos)]⟩] := by
    unfold addDecl; simp
  rw [h1]
  unfold addDecl
  rw [if_pos (by simp [varMatches, hs, hn])]
  simp [updateVar, varMatches, hs, hn, hc]

theorem lookupVar_isSome_iff (vars : List Variable) (s : List Frame) (n : String) :
    (lookupVar vars s n).isSome = true ↔ ∃ v ∈ vars, varMatches v s n = true := by
  rw [lookupVar, List.find?_isSome]

theorem updateVar_matches (d : Decl) (v : Variable) (s : List Frame) (n : String) :
    varMatches (updateVar d v) s n = varMatches v s n := by
  rw [varMatches, varMatches, updateVar_scope, updateVar_name]

theorem addDecl_preserves_lookup (vars : List Variable) (d : Decl) (s : List Frame)
    (n : String) (h : (lookupVar vars s n).isSome = true) :
    (lookupVar (addDecl vars d) s n).isSome = true := by
  rw [lookupVar_isSome_iff] at h ⊢
  obtain ⟨v, hv, hm⟩ := h
  rw [addDecl]
  split
  · exact ⟨updateVar d v, List.mem_map_of_mem _ hv, (updateVar_matches d v s n).trans hm⟩
  · exact ⟨v, List.mem_append_left _ hv, hm⟩

theorem addDecl_lookup_self (vars : List Variable) (d : Decl) :
    (lookupVar (addDecl vars d) d.scope d.name).isSome = true := by
  rw [lookupVar_isSome_iff, addDecl]
  split
  · rename_i hany
    obtain ⟨v, hv, hm⟩ := List.any_eq_true.mp hany
    exact ⟨updateVar d v, List.mem_map_of_mem _ hv,
      (updateVar_matches d v d.scope d.name).trans hm⟩
  · exact ⟨⟨d.scope, d.name, [(d.kind, d.pos)]⟩,
      List.mem_append_right _ (by simp), by simp [varMatches]⟩

theorem foldl_addDecl_preserves (s : List Frame) (n : String) :
    ∀ (ds : List Decl) (vars : List Variable),
      (lookupVar vars s n).isSome = true →
      (lookupVar (ds.foldl addDecl vars) s n).isSome = true := by
  intro ds
  induction ds with
  | nil => intro vars h; exact h
  | cons d ds ih => intro vars h; exact ih _ (addDecl_preserves_lookup vars d s n h)

theorem foldl_addDecl_lookup_of_mem :
    ∀ (ds : List Decl) (vars : List Variable) (d : Decl), d ∈ ds →
      (lookupVar (ds.foldl addDecl vars) d.scope d.name).isSome = true := by
  intro ds
  induction ds with
  | nil => intro vars d hd; simp at hd
  | cons d0 ds ih =>
      intro vars d hd
      rcases List.mem_cons.mp hd with rfl | hd'
      · exact foldl_addDecl_preserves d.scope d.name ds (addDecl vars d)
          (addDecl_lookup_self vars d)
      · exact ih _ d hd'

theorem lookupVar_variablesOf_of_mem (ds : List Decl) (d : Decl) (hd : d ∈ ds) :
    (lookupVar (variablesOf ds) d.scope d.name).isSome = true :=
  foldl_addDecl_lookup_of_mem ds [] d hd

/-- Claim C1: resolution locality. For every resolved Reference of a
program, the scope that owns the target Variable is an ancestor-or-self of
the scope in which the Reference was recorded (a suffix of the
innermost-first scope path), and the only way the target can also lie at or
below the originating scope is to be that scope itself — so no Reference
resolves to a Variable owned by a sibling or descendant scope. -/
theorem resolution_locality (t : Stmt) (rr : ResolvedRef) (q : List Frame)
    (hmem : rr ∈ resolveProgram t) (hres : rr.resolution = Resolution.resolved q) :
    q <:+ rr.ref.scope ∧ (rr.ref.scope <:+ q → q = rr.ref.scope) := by
  obtain ⟨r, _, rfl⟩ := mem_resolveProgram hmem
  rw [resolveRef_ref]
  have hw := (resolveRef_resolved_iff (programVars t) r q).mp hres
  have hs := resolveWalk_suffix (programVars t) r.name r.scope q hw
  exact ⟨hs, fun h2 => hs.sublist.antisymm h2.sublist⟩

/-- Witness for resolution locality at a concrete two-statement program. -/
theorem resolution_locality_witness :
    [rootFrame] <:+ ([rootFrame] : List Frame) ∧
      (([rootFrame] : List Frame) <:+ [rootFrame] →
        ([rootFrame] : List Frame) = [rootFrame]) := by
  have h := resolution_locality sampleVarUse
    ⟨⟨[rootFrame], "x", 2⟩, Resolution.resolved [rootFrame], false⟩ [rootFrame]
    (by decide) (by decide)
  exact h

/-- Claim C2: shadowing. If a scope S on the chain declares the name of a
Reference and the Reference originates at or below S, then the Reference
resolves, its target scope is at or below S (never a scope strictly outside
S), and when no scope strictly nearer than S declares the name the target
is exactly S. -/
theorem shadowing_inner_wins (t : Stmt) (rr : ResolvedRef) (S : List Frame)
    (hmem : rr ∈ resolveProgram t) (hS : S ≠ [])
    (hdecl : (lookupVar (programVars t) S rr.ref.name).isSome = true)
    (hbelow : S <:+ rr.ref.scope) :
    (∃ q, rr.resolution = Resolution.resolved q ∧ S <:+ q) ∧
      ((∀ q ∈ rr.ref.scope.tails, S <:+ q → q ≠ S →
          lookupVar (programVars t) q rr.ref.name = none) →
        rr.resolution = Resolution.resolved S) := by
  obtain ⟨r, _, rfl⟩ := mem_resolveProgram hmem
  rw [resolveRef_ref] at hdecl hbelow ⊢
  constructor
  · obtain ⟨q, hq, hSq⟩ := resolveWalk_below (programVars t) r.name r.scope S hS hdecl hbelow
    exact ⟨q, (resolveRef_resolved_iff _ _ _).mpr hq, hSq⟩
  · intro hmin
    exact (resolveRef_resolved_iff _ _ _).mpr
      (resolveWalk_exact (programVars t) r.name r.scope S hS hdecl hbelow
        (fun q hq hSq hqS => hmin q ((List.mem_tails _ _).mpr hq) hSq hqS))

/-- Witness for shadowing at a concrete program with an outer var x and an
inner block-scoped x: the inner reference resolves to the block scope. -/
theorem shadowing_inner_wins_witness :
    (⟨⟨[⟨2, ScopeKind.block⟩, rootFrame], "x", 4⟩,
        Resolution.resolved [⟨2, ScopeKind.block⟩, rootFrame], false⟩ :
      ResolvedRef).resolution =
      Resolution.resolved [⟨2, ScopeKind.block⟩, rootFrame] :=
  (shadowing_inner_wins sampleShadow
    ⟨⟨[⟨2, ScopeKind.block⟩, rootFrame], "x", 4⟩,
      Resolution.resolved [⟨2, ScopeKind.block⟩, rootFrame], false⟩
    [⟨2, ScopeKind.block⟩, rootFrame]
    (by decide) (by decide) (by decide) (by decide)).2 (by decide)

/-- Claim C3: hoisting. Every var-like or function declaration the Binder
registers attaches to a scope whose head frame is a function or module
scope, never a block scope; a Reference to the declared name originating
anywhere within that owning scope resolves, its target is at or below the
owning scope — never an outer same-named Variable — and it is exactly the
hoisted Variable when no strictly nearer scope declares the name; the
resolution target of a Reference does not depend on its source position, so
a use before the textual declaration point resolves identically; and the
spec scenario of two var declarations of one name, the second inside a
nested block, yields a single Variable at the enclosing function-or-module
scope owning both Definitions. -/
theorem hoisting_function_scope (t : Stmt) :
    (∀ d ∈ (bindProgram t).decls, hoisted d.kind = true →
        ∃ g gs, d.scope = g :: gs ∧ g.kind ≠ ScopeKind.block) ∧
      (∀ d ∈ (bindProgram t).decls, ∀ rr ∈ resolveProgram t,
        hoisted d.kind = true → rr.ref.name = d.name → d.scope <:+ rr.ref.scope →
        (∃ q, rr.resolution = Resolution.resolved q ∧ d.scope <:+ q) ∧
          ((∀ q ∈ rr.ref.scope.tails, d.scope <:+ q → q ≠ d.scope →
              lookupVar (programVars t) q d.name = none) →
            rr.resolution = Resolution.resolved d.scope)) ∧
      (∀ (vars : List Variable) (r : Ref) (p' : Nat),
        (resolveRef vars ⟨r.scope, r.name, p'⟩).resolution =
          (resolveRef vars r).resolution) ∧
      variablesOf (bindProgram sampleVarMerge).decls =
        [⟨[rootFrame], "a", [(DefKind.varDef, 2), (DefKind.varDef, 4)]⟩] := by
  refine ⟨?_, ?_, fun vars r p' => resolveRef_pos_independent vars r p', by decide⟩
  · intro d hd hk
    rw [bindProgram] at hd
    exact bindStmt_decls_ok t [⟨0, ScopeKind.module⟩] ⟨[], [], 1⟩
      ⟨⟨0, ScopeKind.module⟩, by simp, by simp⟩ (by simp) d hd hk
  · intro d hd rr hrr hk hname hbelow
    obtain ⟨r, _, rfl⟩ := mem_resolveProgram hrr
    rw [resolveRef_ref] at hname hbelow ⊢
    have hSne : d.scope ≠ [] := by
      rw [bindProgram] at hd
      obtain ⟨g, gs, hgs, _⟩ := bindStmt_decls_ok t [⟨0, ScopeKind.module⟩] ⟨[], [], 1⟩
        ⟨⟨0, ScopeKind.module⟩, by simp, by simp⟩ (by simp) d hd hk
      simp [hgs]
    have hlook : (lookupVar (programVars t) d.scope r.name).isSome = true := by
      rw [hname]
      exact lookupVar_variablesOf_of_mem (bindProgram t).decls d hd
    constructor
    · obtain ⟨q, hq, hSq⟩ :=
        resolveWalk_below (programVars t) r.name r.scope d.scope hSne hlook hbelow
      exact ⟨q, (resolveRef_resolved_iff _ _ _).mpr hq, hSq⟩
    · intro hmin
      exact (resolveRef_resolved_iff _ _ _).mpr
        (resolveWalk_exact (programVars t) r.name r.scope d.scope hSne hlook hbelow
          (fun q hq hSq hqS => by
            rw [hname]
            exact hmin q ((List.mem_tails _ _).mpr hq) hSq hqS))

/-- Witness for hoisting: in a program where x is referenced inside a block
before its var declaration, the reference resolves to the Variable hoisted
to the module scope. -/
theorem hoisting_function_scope_witness :
    (⟨⟨[⟨1, ScopeKind.block⟩, rootFrame], "x", 2⟩,
        Resolution.resolved [rootFrame], false⟩ : ResolvedRef).resolution =
      Resolution.resolved [rootFrame] :=
  ((hoisting_function_scope sampleHoistUse).2.1 ⟨[rootFrame], DefKind.varDef, "x", 3⟩
    (by decide)
    ⟨⟨[⟨1, ScopeKind.block⟩, rootFrame], "x", 2⟩, Resolution.resolved [rootFrame], false⟩
    (by decide) (by decide) (by decide) (by decide)).2 (by decide)

/-- Claim C4: block-scope containment. A block-scoped declaration attaches
to the current innermost scope, whatever its kind; a Reference never
resolves to a Variable of a scope that is not an ancestor-or-self of its
originating scope, so a Reference outside a declaring block cannot resolve
into it; and in the spec scenario of a block-scoped b referenced after its
enclosing block, the Reference is classified as an implicit global. -/
theorem block_scope_containment :
    (∀ (frames : List Frame) (k : DefKind) (n : String) (st : BindOut),
        blockScoped k = true →
        (bindStmt frames (Stmt.decl k n) st).decls =
          st.decls ++ [⟨frames, k, n, st.pos⟩]) ∧
      (∀ (t : Stmt) (rr : ResolvedRef) (S : List Frame), rr ∈ resolveProgram t →
        ¬S <:+ rr.ref.scope → rr.resolution ≠ Resolution.resolved S) ∧
      resolveProgram sampleBlockLet =
        [⟨⟨[⟨1, ScopeKind.block⟩, rootFrame], "b", 4⟩,
          Resolution.implicitGlobal, false⟩] := by
  refine ⟨?_, ?_, by decide⟩
  · intro frames k n st hk
    rw [bindStmt]
    have hml : moduleLevel k = false := by
      cases k <;> simp [blockScoped, moduleLevel] at hk ⊢
    have hh : hoisted k = false := by
      cases k <;> simp [blockScoped, hoisted] at hk ⊢
    simp [attachTarget, hml, hh]
  · intro t rr S hmem hnsub hres
    obtain ⟨r, _, rfl⟩ := mem_resolveProgram hmem
    rw [resolveRef_ref] at hnsub
    exact hnsub (resolveWalk_suffix _ _ _ _ ((resolveRef_resolved_iff _ _ _).mp hres))

/-- Witness for block-scope containment: the outer reference b of the spec
scenario does not resolve to the inner block scope. -/
theorem block_scope_containment_witness :
    (⟨⟨[⟨1, ScopeKind.block⟩, rootFrame], "b", 4⟩,
        Resolution.implicitGlobal, false⟩ : ResolvedRef).resolution ≠
      Resolution.resolved [⟨2, ScopeKind.block⟩, ⟨1, ScopeKind.block⟩, rootFrame] :=
  block_scope_containment.2.1 sampleBlockLet
    ⟨⟨[⟨1, ScopeKind.block⟩, rootFrame], "b", 4⟩, Resolution.implicitGlobal, false⟩
    [⟨2, ScopeKind.block⟩, ⟨1, ScopeKind.block⟩, rootFrame]
    (by decide) (by decide)

/-- Claim C5: declaration merging. In the variable tables of any
declaration list, no two distinct Variables share one scope and one name
(at most one Variable per name per scope); and two compatible declarations
of one name in one scope produce exactly one Variable owning their two
Definitions in order. -/
theorem declaration_merging :
    (∀ ds : List Decl, (variablesOf ds).Pairwise distinctKey) ∧
      ∀ d1 d2 : Decl, d1.scope = d2.scope → d1.name = d2.name →
        compatibleKinds d1.kind d2.kind = true →
        variablesOf [d1, d2] =
          [⟨d1.scope, d1.name, [(d1.kind, d1.pos), (d2.kind, d2.pos)]⟩] :=
  ⟨variablesOf_pairwise, variablesOf_pair⟩

/-- Witness for declaration merging: a namespace and an enum declaration of
one name in the module scope merge into one Variable with two
Definitions. -/
theorem declaration_merging_witness :
    variablesOf
        [⟨[rootFrame], DefKind.nsDef, "N", 1⟩, ⟨[rootFrame], DefKind.enumDef, "N", 2⟩] =
      [⟨[rootFrame], "N", [(DefKind.nsDef, 1), (DefKind.enumDef, 2)]⟩] :=
  declaration_merging.2 ⟨[rootFrame], DefKind.nsDef, "N", 1⟩
    ⟨[rootFrame], DefKind.enumDef, "N", 2⟩ rfl rfl (by decide)

/-- Claim C6: determinism. Binder and Resolver are pure functions of the
syntax tree, so two runs on one tree produce identical Scope, Variable and
Reference graphs; and the resolution assigned to each Reference does not
depend on the processing order of the reference list — mapping resolution
over any permutation of the references permutes the results identically. -/
theorem determinism (t : Stmt) :
    bindProgram t = bindProgram t ∧ resolveProgram t = resolveProgram t ∧
      ∀ (vars : List Variable) (rs1 rs2 : List Ref), rs1.Perm rs2 →
        (rs1.map (resolveRef vars)).Perm (rs2.map (resolveRef vars)) :=
  ⟨rfl, rfl, fun vars _ _ h => h.map (resolveRef vars)⟩

/-- Witness for determinism: resolving two sample references in either
order yields permuted-identical results. -/
theorem determinism_witness :
    ([sampleRef1, sampleRef2].map (resolveRef sampleVars)).Perm
      ([sampleRef2, sampleRef1].map (resolveRef sampleVars)) :=
  (determinism Stmt.skip).2.2 sampleVars [sampleRef1, sampleRef2]
    [sampleRef2, sampleRef1] (by decide)

/-- Claim C7: unresolved-to-global semantics. Every Reference receives a
total classification — resolved to some scope or implicit global — so
resolution never fails; and the implicit-global classification holds
exactly when no scope on the chain from the originating scope to the root
declares the name. -/
theorem unresolved_to_global (t : Stmt) (rr : ResolvedRef)
    (hmem : rr ∈ resolveProgram t) :
    ((∃ q, rr.resolution = Resolution.resolved q) ∨
        rr.resolution = Resolution.implicitGlobal) ∧
      (rr.resolution = Resolution.implicitGlobal ↔
        ∀ q ∈ rr.ref.scope.tails, q ≠ [] →
          lookupVar (programVars t) q rr.ref.name = none) := by
  obtain ⟨r, _, rfl⟩ := mem_resolveProgram hmem
  rw [resolveRef_ref]
  constructor
  · cases hres : (resolveRef (programVars t) r).resolution with
    | resolved q => exact Or.inl ⟨q, rfl⟩
    | implicitGlobal => exact Or.inr rfl
  · rw [resolveRef_global_iff, resolveWalk_none_iff]
    constructor
    · intro h q hq hne; exact h q ((List.mem_tails _ _).mp hq) hne
    · intro h q hq hne; exact h q ((List.mem_tails _ _).mpr hq) hne

/-- Witness for unresolved-to-global: a reference to an undeclared name is
classified, not failed. -/
theorem unresolved_to_global_witness :
    (∃ q, (⟨⟨[rootFrame], "y", 1⟩, Resolution.implicitGlobal, false⟩ :
        ResolvedRef).resolution = Resolution.resolved q) ∨
      (⟨⟨[rootFrame], "y", 1⟩, Resolution.implicitGlobal, false⟩ :
        ResolvedRef).resolution = Resolution.implicitGlobal :=
  (unresolved_to_global sampleGlobalRef
    ⟨⟨[rootFrame], "y", 1⟩, Resolution.implicitGlobal, false⟩ (by decide)).1

/-- Claim C8: temporal-dead-zone handling. A Reference whose walk finds a
Variable all of whose Definitions are block-scoped and lie after the
referencing position is still linked to that Variable (classified resolved,
not unresolved), and its used-before-declaration flag is set — the case is
reported as data on the Reference, never as a failure. -/
theorem tdz_flagged_not_failing (t : Stmt) (rr : ResolvedRef) (q : List Frame)
    (v : Variable) (hmem : rr ∈ resolveProgram t)
    (hw : resolveWalk (programVars t) rr.ref.name rr.ref.scope = some q)
    (hl : lookupVar (programVars t) q rr.ref.name = some v)
    (hdefs : ∀ e ∈ v.defs, blockScoped e.1 = true ∧ rr.ref.pos < e.2) :
    rr.resolution = Resolution.resolved q ∧ rr.usedBeforeDecl = true := by
  obtain ⟨r, _, rfl⟩ := mem_resolveProgram hmem
  rw [resolveRef_ref] at hw hl hdefs
  have heq := resolveRef_of_lookup (programVars t) r q v hw hl
  rw [heq]
  refine ⟨rfl, ?_⟩
  show tdz v r.pos = true
  rw [tdz, List.all_eq_true]
  intro e he
  rcases hdefs e he with ⟨h1, h2⟩
  simp [h1, h2]

/-- Witness for dead-zone handling: a reference before a block-scoped
declaration of the same name resolves to it with the flag set. -/
theorem tdz_flagged_witness :
    (⟨⟨[rootFrame], "b", 1⟩, Resolution.resolved [rootFrame], true⟩ :
        ResolvedRef).resolution = Resolution.resolved [rootFrame] ∧
      (⟨⟨[rootFrame], "b", 1⟩, Resolution.resolved [rootFrame], true⟩ :
        ResolvedRef).usedBeforeDecl = true :=
  tdz_flagged_not_failing sampleTdz
    ⟨⟨[rootFrame], "b", 1⟩, Resolution.resolved [rootFrame], true⟩ [rootFrame]
    ⟨[rootFrame], "b", [(DefKind.letDef, 2)]⟩
    (by decide) (by decide) (by decide) (by decide)

end ScopeManager

namespace MaxParams

/-- Claim C9: the max-params wrapper. When countVoidThis is true the base
rule listeners are returned entirely unwrapped; otherwise each wrapped
listener invokes the base listener on removeVoidThisParam of the node,
which drops the first parameter exactly when it is an Identifier named this
whose type annotation is the void keyword, and leaves the params unchanged
in every other case, including an empty parameter list. -/
theorem max_params_void_this {α : Type} (cvt : Option Bool) (base : RuleListeners α)
    (node : FunctionLike) :
    (cvt = some true → create cvt base = base) ∧
      (cvt ≠ some true →
        ((create cvt base).functionDeclaration node =
            base.functionDeclaration (removeVoidThisParam node) ∧
          (create cvt base).functionExpression node =
            base.functionExpression (removeVoidThisParam node) ∧
          (create cvt base).arrowFunctionExpression node =
            base.arrowFunctionExpression (removeVoidThisParam node)) ∧
        (node.params = [] → removeVoidThisParam node = node) ∧
        ∀ p rest, node.params = p :: rest →
          ((p.type = ASTNodeType.identifier ∧ p.name = "this" ∧
              p.typeAnn.map TypeAnn.typeAnn = some ASTNodeType.tsVoidKeyword) →
            (removeVoidThisParam node).params = rest) ∧
          (¬(p.type = ASTNodeType.identifier ∧ p.name = "this" ∧
              p.typeAnn.map TypeAnn.typeAnn = some ASTNodeType.tsVoidKeyword) →
            removeVoidThisParam node = node)) := by
  constructor
  · intro h
    rw [create, if_pos h]
  · intro h
    refine ⟨⟨?_, ?_, ?_⟩, ?_, ?_⟩
    · rw [create, if_neg h]; rfl
    · rw [create, if_neg h]; rfl
    · rw [create, if_neg h]; rfl
    · intro hp
      rw [removeVoidThisParam, if_pos (by simp [hp])]
    · intro p rest hp
      constructor
      · intro hcond
        rw [removeVoidThisParam, if_neg (by simp [hp])]
        simp only [hp]
        rw [if_pos hcond]
      · intro hcond
        rw [removeVoidThisParam, if_neg (by simp [hp])]
        simp only [hp]
        rw [if_neg hcond, ← hp]

/-- Witness for the max-params wrapper: with the option off, the base
listener sees the void-this node with its first parameter dropped. -/
theorem max_params_void_this_witness :
    (create Option.none sampleListeners).functionDeclaration sampleVoidThisNode =
      [sampleXParam] := by
  have h := (max_params_void_this Option.none sampleListeners sampleVoidThisNode).2
    (by decide)
  rw [h.1.1]
  show (removeVoidThisParam sampleVoidThisNode).params = [sampleXParam]
  exact (h.2.2 sampleThisParam [sampleXParam] rfl).1 (by decide)

end MaxParams

namespace EnumUtils

theorem getEnumKey_none_iff {V : Type} [DecidableEq V] :
    ∀ (ls : List (EnumLiteralType V)) (lit : V),
      getEnumKeyForLiteral ls lit = none ↔ ∀ e ∈ ls, ¬e.value = lit := by
  intro ls lit
  induction ls with
  | nil => simp [getEnumKeyForLiteral]
  | cons x xs ih =>
      rw [getEnumKeyForLiteral]
      by_cases hx : x.value = lit
      · rw [if_pos hx]
        constructor
        · intro h; exact absurd h (by simp)
        · intro h; exact absurd hx (h x (by simp))
      · rw [if_neg hx, ih]
        constructor
        · intro h y hy
          rcases List.mem_cons.mp hy with rfl | hy'
          · exact hx
          · exact h y hy'
        · intro h y hy
          exact h y (List.mem_cons_of_mem x hy)

theorem getEnumKey_first_match {V : Type} [DecidableEq V] (lit : V) :
    ∀ (pre : List (EnumLiteralType V)) (e : EnumLiteralType V)
      (post : List (EnumLiteralType V)),
      (∀ x ∈ pre, ¬x.value = lit) → e.value = lit →
      getEnumKeyForLiteral (pre ++ e :: post) lit =
        some (e.symbol.parent.name ++ "." ++ e.symbol.name) := by
  intro pre
  induction pre with
  | nil =>
      intro e post _ he
      rw [List.nil_append, getEnumKeyForLiteral, if_pos he]
  | cons x xs ih =>
      intro e post hpre he
      rw [List.cons_append, getEnumKeyForLiteral,
        if_neg (hpre x (List.mem_cons_self x xs))]
      exact ih e post (fun y hy => hpre y (List.mem_cons_of_mem x hy)) he

/-- Claim C10: getEnumKeyForLiteral returns null exactly when no element of
the list has a value strictly equal to the literal; otherwise, for the
first matching element in list order, it returns the parent symbol name, a
dot, and the symbol name. -/
theorem enum_key_for_literal_spec {V : Type} [DecidableEq V]
    (ls : List (EnumLiteralType V)) (lit : V) :
    (getEnumKeyForLiteral ls lit = none ↔ ∀ e ∈ ls, ¬e.value = lit) ∧
      ∀ (pre : List (EnumLiteralType V)) (e : EnumLiteralType V)
        (post : List (EnumLiteralType V)),
        ls = pre ++ e :: post → (∀ x ∈ pre, ¬x.value = lit) → e.value = lit →
        getEnumKeyForLiteral ls lit =
          some (e.symbol.parent.name ++ "." ++ e.symbol.name) := by
  refine ⟨getEnumKey_none_iff ls lit, ?_⟩
  intro pre e post hls hpre he
  rw [hls]
  exact getEnumKey_first_match lit pre e post hpre he

/-- Witness for getEnumKeyForLiteral on the doc-comment example: the
literal banana maps to Fruit.Banana. -/
theorem enum_key_for_literal_witness :
    getEnumKeyForLiteral sampleFruit "banana" = some "Fruit.Banana" := by
  have h := (enum_key_for_literal_spec sampleFruit "banana").2
    [⟨"apple", ⟨⟨"Fruit"⟩, "Apple"⟩⟩] ⟨"banana", ⟨⟨"Fruit"⟩, "Banana"⟩⟩ [] rfl
    (by decide) rfl
  rw [h]
  rfl

end EnumUtils
